import Mathlib

/-!
Verification of the CLAPP importer core (src/importer.py) against its
natural-language specification.

Shallow embedding conventions:
* instants (datetimes) are integers counting minutes; calendar dates are
  integers counting days, so the instant of `date` at time-of-day `t`
  (minutes after midnight) is `1440 * date + t`;
* hours values are rationals; Python `round(x, 2)` is modelled by
  `round2` (round half to even, as Python rounds);
* the external value types `EmploymentType`, `ContractStatus`,
  `LeaveType`, `LeaveStatus` are out of scope of the spec (consumed
  through a resolution contract), so the development is polymorphic over
  them, taking the resolver functions as a `Resolvers` record;
* the `dataset` module (DataSet, Employee, Shift, Leave containers) is
  code of the repository not present under src/; its containers are
  modelled from the spec, section 3 (see the doc comments marked
  `Modelled from the spec`).
-/

namespace Importer

/-- Round a rational to the nearest integer, ties to even — the rounding
mode of Python `round`. -/
def roundHalfEven (q : ℚ) : ℤ :=
  if q - ⌊q⌋ < 1/2 then ⌊q⌋
  else if (1 : ℚ)/2 < q - ⌊q⌋ then ⌊q⌋ + 1
  else if ⌊q⌋ % 2 = 0 then ⌊q⌋ else ⌊q⌋ + 1

/-- Python `round(x, 2)`: round to 2 decimal places. -/
def round2 (q : ℚ) : ℚ := (roundHalfEven (100 * q) : ℚ) / 100

/-- The 7.6-hour cap appearing in `process_leave_report`, as the reduced
fraction 38/5 (see `hourCap_eq`). -/
def hourCap : ℚ := ⟨38, 5, by decide, by decide⟩

/-- Python `str.strip()`: drop leading and trailing whitespace.  (Defined
structurally over the character list so that it evaluates.) -/
def stripStr (s : String) : String :=
  ⟨(((s.data.dropWhile Char.isWhitespace).reverse).dropWhile Char.isWhitespace).reverse⟩

/-- `WorkArea(location, department, role)` from the dataset module.
Modelled from the spec: an immutable triple of its three fields. -/
structure WorkArea where
  location : String
  department : String
  role : String
deriving DecidableEq

/-- A `Shift` as built in `process_main_roster`. Modelled from the spec:
a start/end instant pair with work area, published flag, comment,
attendance flag and pay-cycle identifier.  The Python field `end` is
named `stop` here (`end` is a Lean keyword). -/
structure Shift where
  start : ℤ
  stop : ℤ
  workArea : WorkArea
  published : Bool
  comment : String
  isAttended : Bool
  payCycle : ℤ
deriving DecidableEq

/-- A `Leave` entry as constructed in `process_leave_report`. Modelled
from the spec: date, leave type, leave status, requested-at instant, and
an hours value. -/
structure Leave (LT LS : Type) where
  date : ℤ
  leaveType : LT
  status : LS
  requestedAt : ℤ
  hours : ℚ
deriving DecidableEq

/-- An `Employee` record. Modelled from the spec: identity key is the
employee code; display name, roster-name code, employment type, contract
status, an ordered shift history and a leave calendar. -/
structure Employee (ET CS LT LS : Type) where
  name : String
  code : String
  rosterCode : String
  employmentType : ET
  contractStatus : CS
  shifts : List Shift
  leaveDates : List (Leave LT LS)
deriving DecidableEq

/-- The `DataSet` aggregate root. Modelled from the spec: a mapping from
employee code to Employee (an insertion-ordered association list, as a
Python dict) plus the unassigned-shift pool. -/
structure DataSet (ET CS LT LS : Type) where
  employees : List (String × Employee ET CS LT LS)
  unassignedShifts : List Shift
deriving DecidableEq

/-- The external value-resolution collaborators of spec section 6:
`name_to_employment_type`, `roster_code_to_contract_status`,
`name_to_leave_type` (lenient), `name_to_leave_status` (strict), and the
pay-cycle rule `Shift.calculate_pay_cycle`. -/
structure Resolvers (ET CS LT LS : Type) where
  nameToEmploymentType : String → ET
  rosterCodeToContractStatus : String → CS
  nameToLeaveType : String → Option LT
  nameToLeaveStatus : String → LS
  calculatePayCycle : ℤ → ℤ

/-- Diagnostics emitted through `report_logger` by the two reconcilers. -/
inductive LogMsg where
  | unknownLeaveType (typeStr : String) (empCode : String)
  | leaveEmployeeNotFound (empCode : String)
  | unassignedCount (n : Nat)
deriving DecidableEq

/-- Python dict lookup `employees[code]` / `code in employees` on the
association-list model: first entry with the given key. -/
def findEmp {ET CS LT LS : Type} (c : String) :
    List (String × Employee ET CS LT LS) → Option (Employee ET CS LT LS)
  | [] => none
  | (k, e) :: t => if k = c then some e else findEmp c t

/-- One row of the leave report, with the fields `process_leave_report`
reads.  Dates are day numbers, `requestedAt` an instant, `hours` the raw
`Hours` cell. -/
structure LeaveRow where
  empCode : String
  leaveTypeStr : String
  startDate : ℤ
  endDate : ℤ
  statusStr : String
  requestedAt : ℤ
  hours : ℚ
deriving DecidableEq

/-- `pd.date_range(start, end).date`: the inclusive day range, empty when
`end < start`. -/
def leaveDateRange (s e : ℤ) : List ℤ :=
  (List.range (e + 1 - s).toNat).map (fun (i : ℕ) => s + (i : ℤ))

/-- One leave-day contribution merged into an employee leave calendar
(the body of the `for leave_day in leave_dates` loop): if an entry with
the same date exists, replace the hours of the FIRST such entry by
`round(min(existing + new, 7.6), 2)`; otherwise append a fresh entry
built by `mk` (`Employee.add_leave`, modelled from the spec as an
append). -/
def mergeDay {LT LS : Type} (h : ℚ) (mk : ℤ → Leave LT LS) (day : ℤ) :
    List (Leave LT LS) → List (Leave LT LS)
  | [] => [mk day]
  | l :: ls =>
      if l.date = day then
        { l with hours := round2 (min (l.hours + h) hourCap) } :: ls
      else
        l :: mergeDay h mk day ls

/-- The `Leave(...)` constructor call in `process_leave_report`: a fresh
entry for one day carrying the status of the row, requested-at, capped hours
and leave type. -/
def freshLeave {LT LS : Type} (lt : LT) (ls : LS) (reqAt : ℤ) (h : ℚ)
    (day : ℤ) : Leave LT LS :=
  { date := day, leaveType := lt, status := ls, requestedAt := reqAt, hours := h }

/-- Replace the employee stored under key `c` using `f` (mutation of the
object found by dict lookup). -/
def updateEmp {ET CS LT LS : Type} (c : String)
    (f : Employee ET CS LT LS → Employee ET CS LT LS) :
    List (String × Employee ET CS LT LS) → List (String × Employee ET CS LT LS)
  | [] => []
  | (k, e) :: t => (if k = c then (k, f e) else (k, e)) :: updateEmp c f t

/-- The body of the row loop of `process_leave_report` for a single leave
row: resolve the leave type leniently (skip + diagnostic when
unresolved), cap the hours at 7.6 with 2-decimal rounding, expand the
inclusive date range, and merge each day into the leave calendar
of the owning employee; an unknown employee code yields a diagnostic and no
change. Returns the new dataset and the diagnostics of this row. -/
def processLeaveRow {ET CS LT LS : Type} (res : Resolvers ET CS LT LS)
    (row : LeaveRow) (d : DataSet ET CS LT LS) :
    DataSet ET CS LT LS × List LogMsg :=
  let code := stripStr row.empCode
  let typeStr := stripStr row.leaveTypeStr
  let status := res.nameToLeaveStatus row.statusStr
  let hrs := round2 (min row.hours hourCap)
  let days := leaveDateRange row.startDate row.endDate
  match res.nameToLeaveType typeStr with
  | none => (d, [LogMsg.unknownLeaveType typeStr code])
  | some lt =>
      match findEmp code d.employees with
      | some _ =>
          let step := fun (L : List (Leave LT LS)) day =>
            mergeDay hrs (freshLeave lt status row.requestedAt hrs) day L
          let upd := fun (e : Employee ET CS LT LS) =>
            { e with leaveDates := days.foldl step e.leaveDates }
          ({ d with employees := updateEmp code upd d.employees }, [])
      | none => (d, [LogMsg.leaveEmployeeNotFound code])

/-- `process_leave_report`: process the leave rows in order, accumulating
diagnostics. -/
def process_leave_report {ET CS LT LS : Type} (res : Resolvers ET CS LT LS) :
    List LeaveRow → DataSet ET CS LT LS → DataSet ET CS LT LS × List LogMsg
  | [], d => (d, [])
  | r :: rs, d =>
      let p := processLeaveRow res r d
      let q := process_leave_report res rs p.1
      (q.1, p.2 ++ q.2)

/-- The leave stage of `import_data`, line 65: only rows whose
`Start Date` is on or after the current date are handed to
`process_leave_report`. -/
def leaveStage {ET CS LT LS : Type} (res : Resolvers ET CS LT LS)
    (today : ℤ) (rows : List LeaveRow) (d : DataSet ET CS LT LS) :
    DataSet ET CS LT LS × List LogMsg :=
  process_leave_report res (rows.filter (fun r => today ≤ r.startDate)) d

/-- One row of the main roster with the fields `process_main_roster`
reads.  A `none` in `employee`, `rosterName` or `employeeCode` models a
NaN cell (`pd.notna` false); `date` is a day number and the two times
are minutes after midnight. -/
structure RosterRow where
  employee : Option String
  rosterName : Option String
  employeeCode : Option String
  location : String
  department : String
  role : String
  date : ℤ
  startTime : ℤ
  endTime : ℤ
  published : Bool
  comment : String
  nonAttended : Bool
  employmentTypeStr : String
deriving DecidableEq

/-- `str(row.Employee).strip() if pd.notna(row.Employee) else ""`. -/
def rowName (r : RosterRow) : String :=
  match r.employee with
  | none => ""
  | some s => stripStr s

/-- Same extraction for the `Employee Roster Name` cell. -/
def rowRoster (r : RosterRow) : String :=
  match r.rosterName with
  | none => ""
  | some s => stripStr s

/-- The fixed exclusion keywords of `process_main_roster`. -/
def ignoreKeywords : List String := ["DNR", "UNABLE", "CANCELLED", "NOT WORKED"]

/-- Python `needle in hay` on strings as character lists: `needle` occurs
as a contiguous substring. -/
def isSubstrList (needle : List Char) : List Char → Bool
  | [] => needle.isEmpty
  | c :: t => needle.isPrefixOf (c :: t) || isSubstrList needle t

/-- Python `str.upper` (the keywords and names here are ASCII). -/
def upperStr (s : String) : String := ⟨s.data.map Char.toUpper⟩

/-- `any(keyword in name.upper() for keyword in ignore_keywords)`. -/
def excludedName (name : String) : Bool :=
  ignoreKeywords.any (fun k => isSubstrList k.toList (upperStr name).toList)

/-- The shift builder inside `process_main_roster`: combine the date with
each time-of-day, add one day to the end when it falls strictly before
the start, derive the pay cycle from the start instant, and copy the
row metadata. -/
def buildShift (pc : ℤ → ℤ) (r : RosterRow) : Shift :=
  let startInstant := 1440 * r.date + r.startTime
  let naiveEnd := 1440 * r.date + r.endTime
  let endInstant := if naiveEnd < startInstant then naiveEnd + 1440 else naiveEnd
  { start := startInstant
    stop := endInstant
    workArea := ⟨stripStr r.location, stripStr r.department, stripStr r.role⟩
    published := r.published
    comment := r.comment
    isAttended := !r.nonAttended
    payCycle := pc startInstant }

/-- `DataSet.add_unassigned_shift`. Modelled from the spec: append to the
unassigned pool. -/
def addUnassigned {ET CS LT LS : Type} (s : Shift) (d : DataSet ET CS LT LS) :
    DataSet ET CS LT LS :=
  { d with unassignedShifts := d.unassignedShifts ++ [s] }

/-- `DataSet.add_employee`. Modelled from the spec: insert the employee
under its code at the end of the (insertion-ordered) mapping. -/
def addEmployee {ET CS LT LS : Type} (e : Employee ET CS LT LS)
    (d : DataSet ET CS LT LS) : DataSet ET CS LT LS :=
  { d with employees := d.employees ++ [(e.code, e)] }

/-- `employees[code].add_shift(shift)`. Modelled from the spec: append
the shift to the history of the employee stored under `code`. -/
def addShiftTo {ET CS LT LS : Type} (c : String) (s : Shift)
    (d : DataSet ET CS LT LS) : DataSet ET CS LT LS :=
  { d with employees := updateEmp c (fun e => { e with shifts := e.shifts ++ [s] }) d.employees }

/-- The `Employee(name, employee_code, roster_code, employment_type,
contract_status)` constructor call in `process_main_roster`: a fresh
employee with empty shift history and leave calendar (empty collections
modelled from the spec). -/
def mkEmployee {ET CS LT LS : Type} (res : Resolvers ET CS LT LS)
    (r : RosterRow) (c : String) : Employee ET CS LT LS :=
  { name := rowName r, code := c, rosterCode := rowRoster r
    employmentType := res.nameToEmploymentType r.employmentTypeStr
    contractStatus := res.rosterCodeToContractStatus (rowRoster r)
    shifts := [], leaveDates := [] }

/-- The body of the row loop of `process_main_roster` for one roster row,
on a state (dataset, unassigned count): blank name or roster code routes
the built shift to the unassigned pool; otherwise an exclusion-keyword
match discards the row; otherwise, when the employee code is present,
the employee is created on first sight and the shift appended to its
history. -/
def processRosterRow {ET CS LT LS : Type} (res : Resolvers ET CS LT LS)
    (r : RosterRow) (st : DataSet ET CS LT LS × Nat) :
    DataSet ET CS LT LS × Nat :=
  let name := rowName r
  let rosterCode := rowRoster r
  let shift := buildShift res.calculatePayCycle r
  if name = "" ∨ rosterCode = "" then
    (addUnassigned shift st.1, st.2 + 1)
  else if excludedName name then
    st
  else
    match r.employeeCode with
    | none => st
    | some code =>
        let d1 :=
          if (findEmp code st.1.employees).isNone then
            addEmployee (mkEmployee res r code) st.1
          else st.1
        (addShiftTo code shift d1, st.2)

/-- The row loop of `process_main_roster`. -/
def processRosterRows {ET CS LT LS : Type} (res : Resolvers ET CS LT LS) :
    List RosterRow → DataSet ET CS LT LS × Nat → DataSet ET CS LT LS × Nat
  | [], st => st
  | r :: rs, st => processRosterRows res rs (processRosterRow res r st)

/-- `process_main_roster`: run the row loop from an unassigned count of
zero and emit the single count diagnostic. -/
def process_main_roster {ET CS LT LS : Type} (res : Resolvers ET CS LT LS)
    (rows : List RosterRow) (d : DataSet ET CS LT LS) :
    DataSet ET CS LT LS × List LogMsg :=
  let st := processRosterRows res rows (d, 0)
  (st.1, [LogMsg.unassignedCount st.2])

/-! Basic facts about the rounding model. -/

theorem hourCap_eq : hourCap = 38/5 := by
  norm_num [hourCap, Rat.mk'_eq_divInt, Rat.divInt_eq_div]

theorem roundHalfEven_intCast (n : ℤ) : roundHalfEven (n : ℚ) = n := by
  simp [roundHalfEven]

theorem roundHalfEven_le_of_le {q : ℚ} {n : ℤ} (h : q ≤ (n : ℚ)) :
    roundHalfEven q ≤ n := by
  have hf : ⌊q⌋ ≤ n := by
    have h1 := Int.floor_le_floor h
    simpa using h1
  have hlow : (⌊q⌋ : ℚ) ≤ q := Int.floor_le q
  unfold roundHalfEven
  split_ifs with h1 h2 h3
  · exact hf
  · rcases lt_or_eq_of_le hf with h' | h'
    · omega
    · exfalso
      apply h1
      have : q ≤ (⌊q⌋ : ℚ) := by rw [h']; exact h
      linarith
  · exact hf
  · rcases lt_or_eq_of_le hf with h' | h'
    · omega
    · exfalso
      apply h1
      have : q ≤ (⌊q⌋ : ℚ) := by rw [h']; exact h
      linarith

theorem roundHalfEven_nonneg {q : ℚ} (h : 0 ≤ q) : 0 ≤ roundHalfEven q := by
  have hq : q < 1 ∨ 1 ≤ q := lt_or_le q 1
  have hf : 0 ≤ ⌊q⌋ := Int.floor_nonneg.mpr h
  unfold roundHalfEven
  split_ifs <;> omega

theorem round2_intCast (n : ℤ) : round2 (n : ℚ) = n := by
  rw [round2]
  have h1 : (100 : ℚ) * n = ((100 * n : ℤ) : ℚ) := by push_cast; ring
  rw [h1, roundHalfEven_intCast]
  push_cast
  ring

theorem round2_le_hourCap {q : ℚ} (h : q ≤ hourCap) : round2 q ≤ hourCap := by
  rw [hourCap_eq] at h ⊢
  have h1 : 100 * q ≤ ((760 : ℤ) : ℚ) := by push_cast; linarith
  have h2 := roundHalfEven_le_of_le h1
  have h3 : ((roundHalfEven (100 * q)) : ℚ) ≤ ((760 : ℤ) : ℚ) := by
    exact_mod_cast h2
  rw [round2]
  push_cast at h3
  linarith

theorem round2_nonneg {q : ℚ} (h : 0 ≤ q) : 0 ≤ round2 q := by
  have h1 : (0 : ℚ) ≤ 100 * q := by linarith
  have h2 := roundHalfEven_nonneg h1
  have h3 : (0 : ℚ) ≤ ((roundHalfEven (100 * q)) : ℚ) := by exact_mod_cast h2
  rw [round2]
  positivity

theorem round2_hourCap : round2 hourCap = hourCap := by
  rw [hourCap_eq, round2]
  have h1 : (100 : ℚ) * (38/5) = ((760 : ℤ) : ℚ) := by norm_num
  rw [h1, roundHalfEven_intCast]
  norm_num

/-! Concrete fixtures used by witnesses and counterexamples.  The
external enumerations are instantiated with `Unit`; the sample resolver
leaves the leave-type code "Mystery" unresolved and resolves everything
else. -/

/-- Sample resolvers over `Unit` variants. -/
def res0 : Resolvers Unit Unit Unit Unit :=
  { nameToEmploymentType := fun _ => ()
    rosterCodeToContractStatus := fun _ => ()
    nameToLeaveType := fun s => if s = "Mystery" then none else some ()
    nameToLeaveStatus := fun _ => ()
    calculatePayCycle := fun _ => 0 }

/-- The empty dataset `DataSet()` at the start of an import run. -/
def emptyDS : DataSet Unit Unit Unit Unit := { employees := [], unassignedShifts := [] }

/-- A roster row from 22:00 to 06:00 on day 10 (the overnight example). -/
def nightRow : RosterRow :=
  { employee := some "Alice", rosterName := some "R1", employeeCode := some "E1"
    location := "L", department := "D", role := "C"
    date := 10, startTime := 1320, endTime := 360
    published := true, comment := "", nonAttended := false
    employmentTypeStr := "FT" }

/-- A roster row whose start and end times of day coincide (09:00). -/
def equalTimesRow : RosterRow :=
  { nightRow with startTime := 540, endTime := 540 }

/-- C2.  The claim asserts `end > start` for every built shift, including
rows whose start and end times of day coincide; on such a row the code
leaves `end = start` (the wraparound test on line 150 is a strict
comparison), so the strict inequality fails. -/
theorem shift_end_gt_start_cex :
    ¬ (buildShift (fun _ => 0) equalTimesRow).start
        < (buildShift (fun _ => 0) equalTimesRow).stop := by
  decide

/-- C2 amended: for every roster row with a valid end time of day
(nonnegative) and valid start time of day (below 1440), the built
shift satisfies `end ≥ start`, and `end > start` whenever the start and
end times of day differ; equal times yield `end = start`. -/
theorem shift_end_ge_start (pc : ℤ → ℤ) (r : RosterRow)
    (h1 : 0 ≤ r.endTime) (h2 : r.startTime < 1440) :
    (buildShift pc r).start ≤ (buildShift pc r).stop ∧
    (r.startTime ≠ r.endTime →
      (buildShift pc r).start < (buildShift pc r).stop) := by
  simp only [buildShift]
  split_ifs with h <;> refine ⟨by omega, fun hne => by omega⟩

theorem shift_end_ge_start_witness :
    (0 ≤ nightRow.endTime ∧ nightRow.startTime < 1440) ∧
    (buildShift (fun _ => 0) nightRow).start
      < (buildShift (fun _ => 0) nightRow).stop :=
  ⟨⟨by decide, by decide⟩,
    (shift_end_ge_start (fun _ => 0) nightRow (by decide) (by decide)).2 (by decide)⟩

/-- C3.  The end instant of a built shift is the naive end instant plus
exactly one day when the naive end is strictly earlier than the start
instant, and the naive end unchanged otherwise; a 22:00 to 06:00 row
yields an 8-hour shift ending on the next day. -/
theorem shift_wraparound (pc : ℤ → ℤ) (r : RosterRow) :
    (1440 * r.date + r.endTime < 1440 * r.date + r.startTime →
      (buildShift pc r).stop = (1440 * r.date + r.endTime) + 1440) ∧
    (1440 * r.date + r.startTime ≤ 1440 * r.date + r.endTime →
      (buildShift pc r).stop = 1440 * r.date + r.endTime) ∧
    (r.startTime = 1320 ∧ r.endTime = 360 →
      (buildShift pc r).stop - (buildShift pc r).start = 480 ∧
      (buildShift pc r).stop = 1440 * (r.date + 1) + 360) := by
  simp only [buildShift]
  refine ⟨fun h => ?_, fun h => ?_, fun h => ?_⟩
  · rw [if_pos h]
  · rw [if_neg (by omega)]
  · obtain ⟨hs, he⟩ := h
    rw [hs, he, if_pos (by omega)]
    omega

theorem shift_wraparound_witness :
    (buildShift (fun _ => 0) nightRow).stop
        - (buildShift (fun _ => 0) nightRow).start = 480 ∧
    (buildShift (fun _ => 0) nightRow).stop = 1440 * (nightRow.date + 1) + 360 :=
  (shift_wraparound (fun _ => 0) nightRow).2.2 ⟨by decide, by decide⟩

/-- A roster row with a NaN `Employee` cell. -/
def blankRow : RosterRow := { nightRow with employee := none }

/-- A roster row whose display name carries an exclusion keyword. -/
def cancelRow : RosterRow := { nightRow with employee := some "John Smith (CANCELLED)" }

/-- A roster row with a NaN `Employee Code` cell. -/
def noCodeRow : RosterRow := { nightRow with employeeCode := none }

/-- C6.  A roster row with a blank or absent name or roster code routes
its built shift to the unassigned pool, leaving the employees untouched
and ignoring exclusion keywords; an assigned row whose upper-cased name
contains an exclusion keyword is discarded entirely, changing nothing. -/
theorem roster_unassigned_and_excluded {ET CS LT LS : Type}
    (res : Resolvers ET CS LT LS) (r : RosterRow) (d : DataSet ET CS LT LS) (n : ℕ) :
    (rowName r = "" ∨ rowRoster r = "" →
      processRosterRow res r (d, n) =
        ({ d with unassignedShifts :=
            d.unassignedShifts ++ [buildShift res.calculatePayCycle r] }, n + 1)) ∧
    (rowName r ≠ "" → rowRoster r ≠ "" → excludedName (rowName r) = true →
      processRosterRow res r (d, n) = (d, n)) := by
  constructor
  · intro h
    simp only [processRosterRow]
    rw [if_pos h]
    rfl
  · intro h1 h2 h3
    simp only [processRosterRow]
    rw [if_neg (by tauto), if_pos h3]

theorem roster_unassigned_and_excluded_witness :
    processRosterRow res0 blankRow (emptyDS, 0) =
      ({ emptyDS with unassignedShifts :=
          emptyDS.unassignedShifts ++ [buildShift res0.calculatePayCycle blankRow] }, 0 + 1) ∧
    processRosterRow res0 cancelRow (emptyDS, 0) = (emptyDS, 0) :=
  ⟨(roster_unassigned_and_excluded res0 blankRow emptyDS 0).1 (Or.inl (by decide)),
   (roster_unassigned_and_excluded res0 cancelRow emptyDS 0).2
      (by decide) (by decide) (by decide)⟩

theorem processRosterRows_append {ET CS LT LS : Type} (res : Resolvers ET CS LT LS)
    (l1 l2 : List RosterRow) (st : DataSet ET CS LT LS × ℕ) :
    processRosterRows res (l1 ++ l2) st =
      processRosterRows res l2 (processRosterRows res l1 st) := by
  induction l1 generalizing st with
  | nil => rfl
  | cons r rs ih => simp [processRosterRows, ih]

/-- C10.  An assigned, non-excluded roster row whose `Employee Code`
cell is NaN is silently dropped: the whole roster run produces the same
dataset and the same diagnostics as the run without that row. -/
theorem roster_missing_code_dropped {ET CS LT LS : Type} (res : Resolvers ET CS LT LS)
    (r : RosterRow) (h1 : rowName r ≠ "") (h2 : rowRoster r ≠ "")
    (h3 : excludedName (rowName r) = false) (h4 : r.employeeCode = none)
    (rows1 rows2 : List RosterRow) (d : DataSet ET CS LT LS) :
    process_main_roster res (rows1 ++ r :: rows2) d =
      process_main_roster res (rows1 ++ rows2) d := by
  have hstep : ∀ st : DataSet ET CS LT LS × ℕ, processRosterRow res r st = st := by
    intro st
    simp only [processRosterRow, h4]
    rw [if_neg (by tauto), if_neg (by simp [h3])]
  simp only [process_main_roster, processRosterRows_append]
  have hcons : ∀ st : DataSet ET CS LT LS × ℕ,
      processRosterRows res (r :: rows2) st = processRosterRows res rows2 st := by
    intro st
    simp only [processRosterRows, hstep]
  rw [hcons]

theorem roster_missing_code_dropped_witness :
    process_main_roster res0 [noCodeRow] emptyDS = process_main_roster res0 [] emptyDS :=
  roster_missing_code_dropped res0 noCodeRow (by decide) (by decide) (by decide) rfl
    [] [] emptyDS

/-- A leave row starting on day 99 and reaching into day 105. -/
def pastRow : LeaveRow :=
  { empCode := "E1", leaveTypeStr := "Annual", startDate := 99, endDate := 105
    statusStr := "Approved", requestedAt := 7, hours := 5 }

/-- C9.  `import_data` filters the leave rows to those with
`Start Date >= today` before reconciliation, so a row starting strictly
before today changes neither the dataset nor the diagnostics, even when
its range reaches into the future. -/
theorem leave_past_row_ignored {ET CS LT LS : Type} (res : Resolvers ET CS LT LS)
    (today : ℤ) (r : LeaveRow) (h : r.startDate < today)
    (rows1 rows2 : List LeaveRow) (d : DataSet ET CS LT LS) :
    leaveStage res today (rows1 ++ r :: rows2) d =
      leaveStage res today (rows1 ++ rows2) d := by
  unfold leaveStage
  rw [List.filter_append, List.filter_append, List.filter_cons]
  simp [not_le.mpr h]

theorem leave_past_row_ignored_witness :
    pastRow.startDate < 100 ∧
    leaveStage res0 100 [pastRow] emptyDS = leaveStage res0 100 [] emptyDS :=
  ⟨by decide, leave_past_row_ignored res0 100 pastRow (by decide) [] [] emptyDS⟩

/-- A leave row whose leave-type code does not resolve under `res0`. -/
def mysteryRow : LeaveRow := { pastRow with leaveTypeStr := "Mystery" }

/-- A leave row naming an employee code absent from the dataset. -/
def unknownEmpRow : LeaveRow := { pastRow with empCode := "Ghost" }

/-- C8.  A leave row with an unresolved leave type, or one whose
employee code is absent from the dataset, is skipped whole: the dataset
is unchanged for it (no entry, no placeholder employee), exactly one
diagnostic naming the employee code is emitted, and processing
continues with the remaining rows. -/
theorem leave_row_skipped {ET CS LT LS : Type} (res : Resolvers ET CS LT LS)
    (r : LeaveRow) (rest : List LeaveRow) (d : DataSet ET CS LT LS) :
    (res.nameToLeaveType (stripStr r.leaveTypeStr) = none →
      process_leave_report res (r :: rest) d =
        ((process_leave_report res rest d).1,
          LogMsg.unknownLeaveType (stripStr r.leaveTypeStr) (stripStr r.empCode)
            :: (process_leave_report res rest d).2)) ∧
    (∀ lt : LT, res.nameToLeaveType (stripStr r.leaveTypeStr) = some lt →
      findEmp (stripStr r.empCode) d.employees = none →
      process_leave_report res (r :: rest) d =
        ((process_leave_report res rest d).1,
          LogMsg.leaveEmployeeNotFound (stripStr r.empCode)
            :: (process_leave_report res rest d).2)) := by
  constructor
  · intro h
    simp [process_leave_report, processLeaveRow, h]
  · intro lt h1 h2
    simp [process_leave_report, processLeaveRow, h1, h2]

theorem leave_row_skipped_witness :
    process_leave_report res0 [mysteryRow] emptyDS =
      ((process_leave_report res0 [] emptyDS).1,
        LogMsg.unknownLeaveType (stripStr mysteryRow.leaveTypeStr)
            (stripStr mysteryRow.empCode)
          :: (process_leave_report res0 [] emptyDS).2) ∧
    process_leave_report res0 [unknownEmpRow] emptyDS =
      ((process_leave_report res0 [] emptyDS).1,
        LogMsg.leaveEmployeeNotFound (stripStr unknownEmpRow.empCode)
          :: (process_leave_report res0 [] emptyDS).2) :=
  ⟨(leave_row_skipped res0 mysteryRow [] emptyDS).1 (by decide),
   (leave_row_skipped res0 unknownEmpRow [] emptyDS).2 () (by decide) rfl⟩

theorem hourCap_nonneg : 0 ≤ hourCap := by rw [hourCap_eq]; norm_num

/-- A sample employee and a one-employee dataset. -/
def emp1 : Employee Unit Unit Unit Unit :=
  { name := "Alice", code := "E1", rosterCode := "R1", employmentType := ()
    contractStatus := (), shifts := [], leaveDates := [] }

def ds1 : DataSet Unit Unit Unit Unit :=
  { employees := [("E1", emp1)], unassignedShifts := [] }

/-- A leave row for employee E1, days 3 to 5, 5 raw hours. -/
def leaveRow1 : LeaveRow :=
  { empCode := "E1", leaveTypeStr := "Annual", startDate := 3, endDate := 5
    statusStr := "Approved", requestedAt := 7, hours := 5 }

/-- A pre-existing leave entry of 5 hours on day 3. -/
def leave5 : Leave Unit Unit :=
  { date := 3, leaveType := (), status := (), requestedAt := 7, hours := 5 }

/-- C5.  Merging a leave-day contribution into a calendar whose first
entry dated `day` is `l` replaces only the hours of that entry with
`round(min(existing + new, 7.6), 2)`: type, status and requested-at of
`l` are untouched, every other entry is untouched, no entry is added or
removed, and the match is on date alone; two 5.0-hour contributions
yield 7.6, not 10.0. -/
theorem leave_merge_existing {LT LS : Type} (h : ℚ) (mk : ℤ → Leave LT LS) (day : ℤ)
    (L1 L2 : List (Leave LT LS)) (l : Leave LT LS)
    (hL1 : ∀ x ∈ L1, x.date ≠ day) (hl : l.date = day) :
    mergeDay h mk day (L1 ++ l :: L2) =
      L1 ++ { l with hours := round2 (min (l.hours + h) hourCap) } :: L2 ∧
    round2 (min ((5 : ℚ) + 5) hourCap) = hourCap ∧ hourCap ≠ 10 := by
  refine ⟨?_, ?_, ?_⟩
  · induction L1 with
    | nil => simp [mergeDay, hl]
    | cons x xs ih =>
        have hx : x.date ≠ day := hL1 x (by simp)
        simp only [List.cons_append, mergeDay, if_neg hx]
        exact congrArg (fun L => x :: L) (ih (fun y hy => hL1 y (by simp [hy])))
  · rw [min_eq_right (by rw [hourCap_eq]; norm_num), round2_hourCap]
  · rw [hourCap_eq]; norm_num

theorem leave_merge_existing_witness :
    mergeDay 5 (freshLeave () () 0 5) 3 ([] ++ leave5 :: []) =
      [] ++ { leave5 with hours := round2 (min (leave5.hours + 5) hourCap) } :: [] ∧
    round2 (min ((5 : ℚ) + 5) hourCap) = hourCap ∧ hourCap ≠ 10 :=
  leave_merge_existing 5 (freshLeave () () 0 5) 3 [] [] leave5 (by simp) rfl

theorem mergeDay_fresh {LT LS : Type} (h : ℚ) (mk : ℤ → Leave LT LS) (day : ℤ)
    (L : List (Leave LT LS)) (hL : ∀ l ∈ L, l.date ≠ day) :
    mergeDay h mk day L = L ++ [mk day] := by
  induction L with
  | nil => rfl
  | cons x xs ih =>
      simp only [mergeDay, if_neg (hL x (by simp)), List.cons_append]
      rw [ih (fun y hy => hL y (by simp [hy]))]

theorem foldl_mergeDay_fresh {LT LS : Type} (h : ℚ) (mk : ℤ → Leave LT LS)
    (hmk : ∀ day, (mk day).date = day) :
    ∀ (days : List ℤ) (L : List (Leave LT LS)),
      (∀ l ∈ L, l.date ∉ days) → days.Nodup →
      days.foldl (fun acc day => mergeDay h mk day acc) L = L ++ days.map mk := by
  intro days
  induction days with
  | nil => intro L _ _; simp
  | cons day rest ih =>
      intro L hfree hnd
      simp only [List.foldl_cons, List.map_cons]
      rw [mergeDay_fresh h mk day L (fun l hl e => hfree l hl (by simp [e]))]
      have h1 : ∀ l ∈ L ++ [mk day], l.date ∉ rest := by
        intro l hl
        rcases List.mem_append.mp hl with hmem | hnew
        · intro hr
          exact hfree l hmem (by simp [hr])
        · have hld : l = mk day := by simpa using hnew
          rw [hld, hmk]
          exact (List.nodup_cons.mp hnd).1
      rw [ih (L ++ [mk day]) h1 (List.nodup_cons.mp hnd).2]
      simp

theorem leaveDateRange_mem (s e d : ℤ) :
    d ∈ leaveDateRange s e ↔ s ≤ d ∧ d ≤ e := by
  simp only [leaveDateRange, List.mem_map, List.mem_range]
  constructor
  · rintro ⟨i, hi, rfl⟩
    constructor <;> omega
  · rintro ⟨h1, h2⟩
    refine ⟨(d - s).toNat, by omega, ?_⟩
    omega

theorem leaveDateRange_length (s e : ℤ) :
    (leaveDateRange s e).length = (e + 1 - s).toNat := by
  rw [leaveDateRange, List.length_map, List.length_range]

theorem leaveDateRange_nodup (s e : ℤ) : (leaveDateRange s e).Nodup := by
  rw [leaveDateRange]
  refine List.Nodup.map ?_ (List.nodup_range _)
  intro a b hab
  dsimp only at hab
  omega

theorem findEmp_updateEmp {ET CS LT LS : Type} (c : String)
    (f : Employee ET CS LT LS → Employee ET CS LT LS)
    (l : List (String × Employee ET CS LT LS)) :
    findEmp c (updateEmp c f l) = (findEmp c l).map f := by
  induction l with
  | nil => rfl
  | cons p t ih =>
      rcases p with ⟨k, e⟩
      by_cases hk : k = c
      · rw [updateEmp, if_pos hk, findEmp, if_pos hk, findEmp, if_pos hk]
        rfl
      · rw [updateEmp, if_neg hk, findEmp, if_neg hk, findEmp, if_neg hk, ih]

/-- The per-day contribution of a leave row: a fresh entry carrying the
resolved type and status of the row, requested-at instant, and the capped
hours `round(min(Hours, 7.6), 2)`. -/
def rowContribution {ET CS LT LS : Type} (res : Resolvers ET CS LT LS)
    (r : LeaveRow) (lt : LT) : ℤ → Leave LT LS :=
  freshLeave lt (res.nameToLeaveStatus r.statusStr) r.requestedAt
    (round2 (min r.hours hourCap))

/-- The employee after a leave row is expanded over its whole date
range: one contribution appended per day. -/
def withExpandedLeave {ET CS LT LS : Type} (res : Resolvers ET CS LT LS)
    (r : LeaveRow) (lt : LT) (emp : Employee ET CS LT LS) : Employee ET CS LT LS :=
  { emp with
      leaveDates :=
        emp.leaveDates ++ (leaveDateRange r.startDate r.endDate).map (rowContribution res r lt) }

/-- C4.  A leave row whose type resolves and whose employee is present
is expanded into exactly one contribution per calendar day of the
inclusive range [Start Date, End Date]; when the employee has no prior
entry on those dates, the calendar gains exactly those entries, each
carrying the full capped value `round(min(Hours, 7.6), 2)` (not divided
across days), the requested-at instant of the row, resolved type and
resolved status; no diagnostic is emitted. -/
theorem leave_row_expansion {ET CS LT LS : Type} (res : Resolvers ET CS LT LS)
    (r : LeaveRow) (d : DataSet ET CS LT LS) (lt : LT) (emp : Employee ET CS LT LS)
    (hlt : res.nameToLeaveType (stripStr r.leaveTypeStr) = some lt)
    (hemp : findEmp (stripStr r.empCode) d.employees = some emp)
    (hfree : ∀ l ∈ emp.leaveDates, ¬(r.startDate ≤ l.date ∧ l.date ≤ r.endDate)) :
    (processLeaveRow res r d).2 = [] ∧
    findEmp (stripStr r.empCode) (processLeaveRow res r d).1.employees =
      some (withExpandedLeave res r lt emp) ∧
    (∀ day : ℤ, rowContribution res r lt day =
      freshLeave lt (res.nameToLeaveStatus r.statusStr) r.requestedAt
        (round2 (min r.hours hourCap)) day) ∧
    (leaveDateRange r.startDate r.endDate).length = (r.endDate + 1 - r.startDate).toNat ∧
    (∀ day : ℤ, day ∈ leaveDateRange r.startDate r.endDate ↔
      r.startDate ≤ day ∧ day ≤ r.endDate) ∧
    (leaveDateRange r.startDate r.endDate).Nodup := by
  have hfree' : ∀ l ∈ emp.leaveDates, l.date ∉ leaveDateRange r.startDate r.endDate := by
    intro l hl hmem
    exact hfree l hl ((leaveDateRange_mem _ _ _).mp hmem)
  have hfold := foldl_mergeDay_fresh (round2 (min r.hours hourCap))
    (freshLeave lt (res.nameToLeaveStatus r.statusStr) r.requestedAt
      (round2 (min r.hours hourCap)))
    (fun _ => rfl) (leaveDateRange r.startDate r.endDate) emp.leaveDates hfree'
    (leaveDateRange_nodup _ _)
  refine ⟨?_, ?_, fun _ => rfl, leaveDateRange_length _ _, leaveDateRange_mem _ _,
    leaveDateRange_nodup _ _⟩
  · simp [processLeaveRow, hlt, hemp]
  · simp only [processLeaveRow, hlt, hemp]
    rw [findEmp_updateEmp, hemp]
    simp only [Option.map_some', withExpandedLeave, rowContribution]
    rw [hfold]

theorem leave_row_expansion_witness :
    (processLeaveRow res0 leaveRow1 ds1).2 = [] ∧
    findEmp (stripStr leaveRow1.empCode) (processLeaveRow res0 leaveRow1 ds1).1.employees =
      some (withExpandedLeave res0 leaveRow1 () emp1) ∧
    (∀ day : ℤ, rowContribution res0 leaveRow1 () day =
      freshLeave () (res0.nameToLeaveStatus leaveRow1.statusStr) leaveRow1.requestedAt
        (round2 (min leaveRow1.hours hourCap)) day) ∧
    (leaveDateRange leaveRow1.startDate leaveRow1.endDate).length =
      (leaveRow1.endDate + 1 - leaveRow1.startDate).toNat ∧
    (∀ day : ℤ, day ∈ leaveDateRange leaveRow1.startDate leaveRow1.endDate ↔
      leaveRow1.startDate ≤ day ∧ day ≤ leaveRow1.endDate) ∧
    (leaveDateRange leaveRow1.startDate leaveRow1.endDate).Nodup :=
  leave_row_expansion res0 leaveRow1 ds1 () emp1 (by decide) (by decide) (by decide)

theorem mergeDay_bounds {LT LS : Type} (h : ℚ) (mk : ℤ → Leave LT LS) (day : ℤ)
    (L : List (Leave LT LS)) (hh : 0 ≤ h)
    (hmk : 0 ≤ (mk day).hours ∧ (mk day).hours ≤ hourCap)
    (hL : ∀ l ∈ L, 0 ≤ l.hours ∧ l.hours ≤ hourCap) :
    ∀ l ∈ mergeDay h mk day L, 0 ≤ l.hours ∧ l.hours ≤ hourCap := by
  induction L with
  | nil =>
      intro l hl
      simp only [mergeDay, List.mem_singleton] at hl
      rw [hl]
      exact hmk
  | cons x xs ih =>
      intro l hl
      simp only [mergeDay] at hl
      by_cases hx : x.date = day
      · rw [if_pos hx] at hl
        rcases List.mem_cons.mp hl with hfst | hmem
        · rw [hfst]
          refine ⟨round2_nonneg (le_min (add_nonneg (hL x (by simp)).1 hh) hourCap_nonneg),
            round2_le_hourCap (min_le_right _ _)⟩
        · exact hL l (by simp [hmem])
      · rw [if_neg hx] at hl
        rcases List.mem_cons.mp hl with hfst | hmem
        · rw [hfst]
          exact hL x (by simp)
        · exact ih (fun y hy => hL y (by simp [hy])) l hmem

theorem foldl_mergeDay_bounds {LT LS : Type} (h : ℚ) (mk : ℤ → Leave LT LS)
    (hh : 0 ≤ h) (hmk : ∀ day, 0 ≤ (mk day).hours ∧ (mk day).hours ≤ hourCap) :
    ∀ (days : List ℤ) (L : List (Leave LT LS)),
      (∀ l ∈ L, 0 ≤ l.hours ∧ l.hours ≤ hourCap) →
      ∀ l ∈ days.foldl (fun acc day => mergeDay h mk day acc) L,
        0 ≤ l.hours ∧ l.hours ≤ hourCap := by
  intro days
  induction days with
  | nil =>
      intro L hL
      simpa using hL
  | cons day rest ih =>
      intro L hL
      simp only [List.foldl_cons]
      exact ih _ (mergeDay_bounds h mk day L hh (hmk day) hL)

theorem updateEmp_bounds {ET CS LT LS : Type} (c : String)
    (f : Employee ET CS LT LS → Employee ET CS LT LS)
    (t : List (String × Employee ET CS LT LS))
    (hf : ∀ e : Employee ET CS LT LS,
      (∀ l ∈ e.leaveDates, 0 ≤ l.hours ∧ l.hours ≤ hourCap) →
      ∀ l ∈ (f e).leaveDates, 0 ≤ l.hours ∧ l.hours ≤ hourCap)
    (ht : ∀ p ∈ t, ∀ l ∈ p.2.leaveDates, 0 ≤ l.hours ∧ l.hours ≤ hourCap) :
    ∀ p ∈ updateEmp c f t, ∀ l ∈ p.2.leaveDates, 0 ≤ l.hours ∧ l.hours ≤ hourCap := by
  induction t with
  | nil =>
      intro p hp
      simp [updateEmp] at hp
  | cons q t iht =>
      rcases q with ⟨k, e⟩
      intro p hp
      rw [updateEmp] at hp
      rcases List.mem_cons.mp hp with hfst | hmem
      · by_cases hk : k = c
        · rw [if_pos hk] at hfst
          rw [hfst]
          exact hf e (ht (k, e) (by simp))
        · rw [if_neg hk] at hfst
          rw [hfst]
          exact ht (k, e) (by simp)
      · exact iht (fun y hy => ht y (by simp [hy])) p hmem

theorem processLeaveRow_bounds {ET CS LT LS : Type} (res : Resolvers ET CS LT LS)
    (r : LeaveRow) (d : DataSet ET CS LT LS) (hr : 0 ≤ r.hours)
    (hd : ∀ p ∈ d.employees, ∀ l ∈ p.2.leaveDates, 0 ≤ l.hours ∧ l.hours ≤ hourCap) :
    ∀ p ∈ (processLeaveRow res r d).1.employees,
      ∀ l ∈ p.2.leaveDates, 0 ≤ l.hours ∧ l.hours ≤ hourCap := by
  have hcap : 0 ≤ round2 (min r.hours hourCap) ∧ round2 (min r.hours hourCap) ≤ hourCap :=
    ⟨round2_nonneg (le_min hr hourCap_nonneg), round2_le_hourCap (min_le_right _ _)⟩
  rcases hres : res.nameToLeaveType (stripStr r.leaveTypeStr) with _ | lt
  · simpa only [processLeaveRow, hres] using hd
  · rcases hemp : findEmp (stripStr r.empCode) d.employees with _ | emp
    · simpa only [processLeaveRow, hres, hemp] using hd
    · simp only [processLeaveRow, hres, hemp]
      exact updateEmp_bounds _ _ _
        (fun e he => foldl_mergeDay_bounds _ _ hcap.1 (fun _ => hcap) _ _ he) hd

/-- A leave row with a negative raw `Hours` value for day 3. -/
def negRow : LeaveRow := { leaveRow1 with endDate := 3, hours := -1 }

/-- C1 counterexample.  The code computes `round(min(hours, 7.6), 2)`
with no lower clamp, so a leave row carrying a negative raw `Hours`
value writes a Leave entry with negative hours, outside the claimed
range [0, 7.6]. -/
theorem leave_hours_clamp_cex :
    ∃ p ∈ (processLeaveRow res0 negRow ds1).1.employees,
      ∃ l ∈ p.2.leaveDates, l.hours < 0 := by
  have hlt : res0.nameToLeaveType (stripStr negRow.leaveTypeStr) = some () := by decide
  have hemp : findEmp (stripStr negRow.empCode) ds1.employees = some emp1 := by decide
  have hcode : stripStr negRow.empCode = "E1" := by decide
  have hdr : leaveDateRange negRow.startDate negRow.endDate = [3] := by decide
  have hval : round2 (min negRow.hours hourCap) = -1 := by
    show round2 (min (-1 : ℚ) hourCap) = -1
    rw [min_eq_left (by rw [hourCap_eq]; norm_num)]
    have h := round2_intCast (-1)
    norm_num at h
    exact h
  have hres : (processLeaveRow res0 negRow ds1).1.employees =
      [("E1", { emp1 with leaveDates := [freshLeave () () negRow.requestedAt (-1) 3] })] := by
    simp only [processLeaveRow, hlt, hemp, hval, hdr]
    simp [hcode, ds1, emp1, updateEmp, mergeDay, findEmp]
  refine ⟨("E1", { emp1 with leaveDates := [freshLeave () () negRow.requestedAt (-1) 3] }),
    ?_, freshLeave () () negRow.requestedAt (-1) 3, ?_, ?_⟩
  · rw [hres]
    exact List.mem_cons_self _ _
  · simp
  · show (-1 : ℚ) < 0
    norm_num

/-- C1 amended.  Every write of an hours value is capped above at 7.6
(by `round(min(..., 7.6), 2)` on creation and on merge), and provided
every raw `Hours` value in the input rows is nonnegative — which the
code assumes but does not enforce — every Leave entry of every employee
lies in the inclusive range [0, 7.6] after the leave report is
processed from any dataset whose entries already lie in that range. -/
theorem leave_hours_clamped {ET CS LT LS : Type} (res : Resolvers ET CS LT LS)
    (rows : List LeaveRow) (d : DataSet ET CS LT LS)
    (hrows : ∀ r ∈ rows, 0 ≤ r.hours)
    (hd : ∀ p ∈ d.employees, ∀ l ∈ p.2.leaveDates, 0 ≤ l.hours ∧ l.hours ≤ hourCap) :
    ∀ p ∈ (process_leave_report res rows d).1.employees,
      ∀ l ∈ p.2.leaveDates, 0 ≤ l.hours ∧ l.hours ≤ hourCap := by
  induction rows generalizing d with
  | nil => simpa only [process_leave_report] using hd
  | cons r rest ih =>
      simp only [process_leave_report]
      exact ih _ (fun x hx => hrows x (List.mem_cons_of_mem _ hx))
        (processLeaveRow_bounds res r d (hrows r (List.mem_cons_self _ _)) hd)

theorem leave_hours_clamped_witness :
    (∀ r ∈ [leaveRow1], 0 ≤ r.hours) ∧
    ∀ p ∈ (process_leave_report res0 [leaveRow1] ds1).1.employees,
      ∀ l ∈ p.2.leaveDates, 0 ≤ l.hours ∧ l.hours ≤ hourCap :=
  ⟨by decide, leave_hours_clamped res0 [leaveRow1] ds1 (by decide) (by decide)⟩

theorem findEmp_updateEmp_ne {ET CS LT LS : Type} (c cu : String)
    (f : Employee ET CS LT LS → Employee ET CS LT LS)
    (l : List (String × Employee ET CS LT LS)) (hne : cu ≠ c) :
    findEmp c (updateEmp cu f l) = findEmp c l := by
  induction l with
  | nil => rfl
  | cons p t ih =>
      rcases p with ⟨k, e⟩
      by_cases hk : k = cu
      · subst hk
        rw [updateEmp, if_pos rfl, findEmp, if_neg hne, findEmp, if_neg hne, ih]
      · rw [updateEmp, if_neg hk]
        by_cases hkc : k = c
        · rw [findEmp, if_pos hkc, findEmp, if_pos hkc]
        · rw [findEmp, if_neg hkc, findEmp, if_neg hkc, ih]

theorem findEmp_append {ET CS LT LS : Type} (c : String)
    (l : List (String × Employee ET CS LT LS)) (k : String) (e : Employee ET CS LT LS) :
    findEmp c (l ++ [(k, e)]) =
      match findEmp c l with
      | some x => some x
      | none => if k = c then some e else none := by
  induction l with
  | nil => rfl
  | cons p t ih =>
      rcases p with ⟨ku, eu⟩
      by_cases hk : ku = c
      · rw [List.cons_append, findEmp, if_pos hk]
        rw [findEmp, if_pos hk]
      · rw [List.cons_append, findEmp, if_neg hk, ih]
        rw [findEmp, if_neg hk]

/-- The rows of the roster that reach the shift-appending branch for
employee code `c`: nonblank name and roster code, no exclusion keyword,
and exactly this employee code. -/
def qualifies (c : String) (r : RosterRow) : Bool :=
  decide (rowName r ≠ "") && decide (rowRoster r ≠ "") &&
    !excludedName (rowName r) && decide (r.employeeCode = some c)

/-- An employee with further shifts appended to its history. -/
def withShifts {ET CS LT LS : Type} (e : Employee ET CS LT LS) (ss : List Shift) :
    Employee ET CS LT LS :=
  { e with shifts := e.shifts ++ ss }

theorem processRosterRow_findEmp {ET CS LT LS : Type} (res : Resolvers ET CS LT LS)
    (r : RosterRow) (st : DataSet ET CS LT LS × ℕ) (c : String) :
    findEmp c (processRosterRow res r st).1.employees =
      if qualifies c r then
        match findEmp c st.1.employees with
        | some e => some (withShifts e [buildShift res.calculatePayCycle r])
        | none => some (withShifts (mkEmployee res r c) [buildShift res.calculatePayCycle r])
      else findEmp c st.1.employees := by
  by_cases hN : rowName r = "" ∨ rowRoster r = ""
  · have hq : qualifies c r = false := by
      rcases hN with h | h <;> simp [qualifies, h]
    simp only [processRosterRow]
    rw [if_pos hN]
    simp [addUnassigned, hq]
  · push_neg at hN
    simp only [processRosterRow]
    rw [if_neg (by tauto)]
    by_cases hE : excludedName (rowName r) = true
    · have hq : qualifies c r = false := by simp [qualifies, hE]
      rw [if_pos hE, hq]
      simp
    · rw [Bool.not_eq_true] at hE
      rw [if_neg (by simp [hE])]
      rcases hC : r.employeeCode with _ | code
      · have hq : qualifies c r = false := by simp [qualifies, hC]
        simp [hq]
      · dsimp only
        by_cases hcc : code = c
        · subst hcc
          have hq : qualifies code r = true := by
            simp [qualifies, hN.1, hN.2, hE, hC]
          rw [hq]
          rcases hfind : findEmp code st.1.employees with _ | e
          · simp only [Option.isNone_none, if_true, addShiftTo, addEmployee]
            rw [findEmp_updateEmp]
            have hk : (mkEmployee res r code).code = code := rfl
            rw [hk, findEmp_append, hfind]
            simp [withShifts, mkEmployee]
          · simp only [Option.isNone_some, Bool.false_eq_true, if_false, addShiftTo]
            rw [findEmp_updateEmp, hfind]
            simp [withShifts]
        · have hq : qualifies c r = false := by simp [qualifies, hC, hcc]
          rw [hq]
          rcases hfind : findEmp code st.1.employees with _ | e
          · simp only [Option.isNone_none, if_true, addShiftTo, addEmployee]
            rw [findEmp_updateEmp_ne _ _ _ _ hcc]
            have hk : (mkEmployee res r code).code = code := rfl
            rw [hk, findEmp_append]
            rcases hfind2 : findEmp c st.1.employees with _ | x <;> simp [hfind2, hcc]
          · simp only [Option.isNone_some, Bool.false_eq_true, if_false, addShiftTo]
            rw [findEmp_updateEmp_ne _ _ _ _ hcc]

theorem processRosterRows_findEmp {ET CS LT LS : Type} (res : Resolvers ET CS LT LS)
    (rows : List RosterRow) (st : DataSet ET CS LT LS × ℕ) (c : String) :
    findEmp c (processRosterRows res rows st).1.employees =
      match findEmp c st.1.employees, rows.filter (qualifies c) with
      | some e, qs => some (withShifts e (qs.map (buildShift res.calculatePayCycle)))
      | none, [] => none
      | none, q :: qs => some (withShifts (mkEmployee res q c)
          ((q :: qs).map (buildShift res.calculatePayCycle))) := by
  induction rows generalizing st with
  | nil =>
      rcases hfind : findEmp c st.1.employees with _ | e <;>
        simp [processRosterRows, hfind, withShifts]
  | cons r rs ih =>
      rw [processRosterRows, ih (processRosterRow res r st),
        processRosterRow_findEmp res r st c, List.filter_cons]
      by_cases hq : qualifies c r = true
      · rw [if_pos hq, if_pos hq]
        rcases hfind : findEmp c st.1.employees with _ | e <;>
          simp [withShifts, List.append_assoc]
      · rw [if_neg hq, if_neg hq]

/-- C7.  After the roster reconciler runs from the empty dataset, every
employee code carried by some assigned, non-excluded roster row is
present in the dataset; its attributes (name, roster code, employment
type, contract status) come from the FIRST such row, later differing
values being ignored, and its shift history is exactly one built shift
per such row, in row order — so each row built shift appears in the
history exactly once per originating row. -/
theorem roster_assigned_employee {ET CS LT LS : Type} (res : Resolvers ET CS LT LS)
    (rows : List RosterRow) (c : String) (q : RosterRow) (qs : List RosterRow)
    (hq : rows.filter (qualifies c) = q :: qs) :
    ∃ e : Employee ET CS LT LS,
      findEmp c (process_main_roster res rows
        { employees := [], unassignedShifts := [] }).1.employees = some e ∧
      e.shifts = (q :: qs).map (buildShift res.calculatePayCycle) ∧
      e.shifts.length = (rows.filter (qualifies c)).length ∧
      e.name = rowName q ∧ e.code = c ∧ e.rosterCode = rowRoster q ∧
      e.employmentType = res.nameToEmploymentType q.employmentTypeStr ∧
      e.contractStatus = res.rosterCodeToContractStatus (rowRoster q) := by
  have h := processRosterRows_findEmp res rows
    ({ employees := [], unassignedShifts := [] }, 0) c
  rw [hq] at h
  refine ⟨withShifts (mkEmployee res q c) ((q :: qs).map (buildShift res.calculatePayCycle)),
    ?_, ?_, ?_, rfl, rfl, rfl, rfl, rfl⟩
  · exact h
  · simp [withShifts, mkEmployee]
  · rw [hq]
    simp [withShifts, mkEmployee]

/-- A second qualifying roster row for employee E1 with a differing
employment type. -/
def dayRow : RosterRow :=
  { nightRow with startTime := 480, endTime := 600, employmentTypeStr := "PT" }

theorem roster_assigned_employee_witness :
    ∃ e : Employee Unit Unit Unit Unit,
      findEmp "E1" (process_main_roster res0 [nightRow, dayRow]
        { employees := [], unassignedShifts := [] }).1.employees = some e ∧
      e.shifts = ([nightRow, dayRow].map (buildShift res0.calculatePayCycle)) ∧
      e.shifts.length = ([nightRow, dayRow].filter (qualifies "E1")).length ∧
      e.name = rowName nightRow ∧ e.code = "E1" ∧ e.rosterCode = rowRoster nightRow ∧
      e.employmentType = res0.nameToEmploymentType nightRow.employmentTypeStr ∧
      e.contractStatus = res0.rosterCodeToContractStatus (rowRoster nightRow) :=
  roster_assigned_employee res0 [nightRow, dayRow] "E1" nightRow [dayRow] (by decide)

end Importer
